import Mathlib

/-!
Shallow embedding of `livetracker_staticone.py`, a straight-line
fetch → align → normalize → render → log pipeline over two crypto price
series (BTC and ETH).  Prices are modelled as rationals, timestamps as
naturals, and the pandas operations used by the script (`pd.concat` with
outer join, `ffill`, `bfill`, column division by `iloc[0]`,
`ewm(span, adjust=False).mean()`) are translated to explicit list
functions.  The script's filesystem effects (snapshot CSVs and the daily
log CSV) are modelled as an explicit state threaded through one run of
the pipeline.
-/

/-- A raw price series: ordered (timestamp, price) pairs, as produced by
`get_binance_data` (only the `timestamp` index and the `price` column
are kept by the script). -/
abbrev PriceSeries := List (ℕ × ℚ)

/-- `ema_period = 7` from the script's settings block. -/
def ema_period : ℕ := 7

/-- Index lookup in a price series: the value at timestamp `t`, if
present (pandas series indexing by label, timestamps deduplicated by the
exchange's kline boundaries). -/
def lookupPrice (s : PriceSeries) (t : ℕ) : Option ℚ :=
  match s with
  | [] => none
  | p :: rest => if p.1 = t then some p.2 else lookupPrice rest t

/-- Insert a timestamp into a sorted list of timestamps. -/
def insertSorted (t : ℕ) : List ℕ → List ℕ
  | [] => [t]
  | x :: xs => if t ≤ x then t :: x :: xs else x :: insertSorted t xs

/-- Insertion sort on timestamps (pandas sorts the union index when
concatenating two series with different indexes). -/
def sortNat (l : List ℕ) : List ℕ := l.foldr insertSorted []

/-- The union index of `pd.concat([btc["price"], eth["price"]], axis=1)`:
the sorted, deduplicated union of the two series' timestamps. -/
def unionIndex (s1 s2 : PriceSeries) : List ℕ :=
  sortNat ((s1.map Prod.fst ++ s2.map Prod.fst).dedup)

/-- One column of the concatenated frame before filling: at each
timestamp of the index, the series' value there, or a gap (NaN) if the
series has no observation at that timestamp. -/
def colO (s : PriceSeries) (idx : List ℕ) : List (Option ℚ) :=
  idx.map (lookupPrice s)

/-- Forward-fill with an explicit carry: a gap takes the last value seen
so far (`last`), a present value replaces the carry. -/
def ffillAux (last : Option ℚ) : List (Option ℚ) → List (Option ℚ)
  | [] => []
  | none :: rest => last :: ffillAux last rest
  | some v :: rest => some v :: ffillAux (some v) rest

/-- `Series.ffill()`: propagate the last observed value forward; leading
gaps stay gaps. -/
def ffill (xs : List (Option ℚ)) : List (Option ℚ) := ffillAux none xs

/-- `Series.bfill()`: propagate the next observed value backward;
trailing gaps stay gaps.  Implemented as a forward fill of the reversed
column. -/
def bfill (xs : List (Option ℚ)) : List (Option ℚ) :=
  (ffillAux none xs.reverse).reverse

/-- One fully processed column of the aligned frame:
`data = pd.concat(...); data = data.ffill().bfill()` (line 87‑89). -/
def filledCol (s : PriceSeries) (idx : List ℕ) : List (Option ℚ) :=
  bfill (ffill (colO s idx))

/-- The aligned column as plain rationals; a gap that survived both
fills (impossible for a non-empty input series) reads as `0`. -/
def alignedCol (s : PriceSeries) (idx : List ℕ) : List ℚ :=
  (filledCol s idx).map (fun o => o.getD 0)

/-- Normalization of one column: `data[col] / data[col].iloc[0]`
(lines 94‑95). -/
def normalizeCol (col : List ℚ) : List ℚ :=
  col.map (fun v => v / col.headI)

/-- The normalized BTC series (`btc` in the script, line 94). -/
def normBTC (s1 s2 : PriceSeries) : List ℚ :=
  normalizeCol (alignedCol s1 (unionIndex s1 s2))

/-- The normalized ETH series (`eth` in the script, line 95). -/
def normETH (s1 s2 : PriceSeries) : List ℚ :=
  normalizeCol (alignedCol s2 (unionIndex s1 s2))

/-- The 50/50 mix `0.5 * btc + 0.5 * eth` (line 96). -/
def mixCol (b e : List ℚ) : List ℚ :=
  List.zipWith (fun x y => (1 / 2 : ℚ) * x + (1 / 2 : ℚ) * y) b e

/-- Scaling an entire raw input series by a constant. -/
def scaleSeries (c : ℚ) (s : PriceSeries) : PriceSeries :=
  s.map (fun p => (p.1, c * p.2))

/-- `alpha = 2 / (span + 1)` for the script's fixed `span = ema_period = 7`,
the decay used by `ewm(span=7, adjust=False)`. -/
def emaAlpha : ℚ := 2 / ((ema_period : ℚ) + 1)

/-- The running part of the adjust=False EWMA: each output is
`alpha * price + (1 - alpha) * previous_output`. -/
def ewmaAcc (a prev : ℚ) : List ℚ → List ℚ
  | [] => []
  | x :: rest =>
      (a * x + (1 - a) * prev) :: ewmaAcc a (a * x + (1 - a) * prev) rest

/-- `series.ewm(span, adjust=False).mean()` (lines 134 and 155): first
output equals the first input, then the recursive smoothing. -/
def ewma (a : ℚ) : List ℚ → List ℚ
  | [] => []
  | x :: rest => x :: ewmaAcc a x rest

/-- Which asset the banner reports as leading. -/
inductive Leader
  | btc
  | eth
deriving DecidableEq

/-- The leading-asset signal (lines 187‑190): `if eth_last > btc_last`
report ETH leading, `else` report BTC leading. -/
def leadingSignal (btcLast ethLast : ℚ) : Leader :=
  if ethLast > btcLast then .eth else .btc

/-- One row of the daily summary log (`log_entry`, lines 198‑209).  The
wall-clock timestamp string is not modelled; the numeric fields are. -/
structure LogRow where
  btcPrice : ℚ
  ethPrice : ℚ
  btcNorm : ℚ
  ethNorm : ℚ
  mixVal : ℚ
  ethBtcQuot : ℚ
  btcRet : ℚ
  ethRet : ℚ
  diffPct : ℚ
deriving DecidableEq

/-- Contents of one daily log CSV: how many header lines it holds and
its data rows, in order. -/
structure LogFile where
  headerCount : ℕ
  rows : List LogRow
deriving DecidableEq

/-- The filesystem state the script touches.  A snapshot file
`data_logs/raw_data/ASSET_DATE.csv` is keyed by the pair
(asset symbol, calendar date); a daily log file
`data_logs/crypto_tracker_DATE.csv` is keyed by the calendar date. -/
structure PState where
  snapshots : String × String → Option PriceSeries
  logs : String → Option LogFile

/-- The state with no snapshot and no log files on disk. -/
def emptyState : PState := ⟨fun _ => none, fun _ => none⟩

/-- What one run of the script produces besides its filesystem effect:
how many HTTP fetches it performed, whether the charts were rendered,
and whether an error was surfaced instead. -/
structure RunResult where
  state : PState
  fetchCount : ℕ
  chartRendered : Bool
  errorShown : Bool

/-- `df.to_csv(f"{raw_data_dir}/{asset}_{date}.csv")`: write (create or
overwrite) one snapshot file. -/
def updSnap (st : PState) (k : String × String) (v : PriceSeries) : PState :=
  { st with snapshots := fun f => if f = k then some v else st.snapshots f }

/-- Lines 211‑214: create the day's log with a header if absent,
otherwise append the row with `header=False`. -/
def appendLog (st : PState) (d : String) (r : LogRow) : PState :=
  { st with
    logs := fun f =>
      if f = d then
        match st.logs d with
        | none => some ⟨1, [r]⟩
        | some lf => some ⟨lf.headerCount, lf.rows ++ [r]⟩
      else st.logs f }

/-- The summary metrics (lines 175‑180) and the log row built from them
(lines 198‑209), computed from the two loaded raw series. -/
def computeRow (btc_df eth_df : PriceSeries) : LogRow :=
  let idx := unionIndex btc_df eth_df
  let btcCol := alignedCol btc_df idx
  let ethCol := alignedCol eth_df idx
  let btcN := normalizeCol btcCol
  let ethN := normalizeCol ethCol
  let btcLast := btcN.getLastD 0
  let ethLast := ethN.getLastD 0
  { btcPrice := btcCol.getLastD 0
    ethPrice := ethCol.getLastD 0
    btcNorm := btcLast
    ethNorm := ethLast
    mixVal := (mixCol btcN ethN).getLastD 0
    ethBtcQuot := ethLast / btcLast
    btcRet := (btcLast - 1) * 100
    ethRet := (ethLast - 1) * 100
    diffPct := (ethLast - 1) * 100 - (btcLast - 1) * 100 }

/-- The tail of the pipeline shared by live and frozen mode: align,
normalize, render the charts, append the log row.  An empty aligned
frame makes `iloc[0]` raise, which aborts the script before any chart
or log write (the snapshot writes of a live run have already
happened). -/
def finishRun (st : PState) (fc : ℕ) (today : String)
    (btc_df eth_df : PriceSeries) : RunResult :=
  if unionIndex btc_df eth_df = [] then
    ⟨st, fc, false, true⟩
  else
    ⟨appendLog st today (computeRow btc_df eth_df), fc, true, false⟩

/-- One invocation of the script.  `freezeChoice` is the sidebar
selection (`none` = "Today (Live)", `some d` = frozen snapshot date
`d`); `today` is today's calendar date; `fetchBTC` / `fetchETH` are the
outcomes the network would deliver for the two `get_binance_data`
calls (an `Except.error` models a request exception or a non-2xx
`raise_for_status`).  Live mode fetches BTC then ETH inside one
`try` (a BTC failure prevents the ETH fetch), shows a fatal error and
`st.stop`s on failure, and on success saves both series as today's
snapshots before the shared tail runs.  Frozen mode reads the two
snapshot files for the chosen date (a missing file raises) and performs
no fetch and no snapshot write. -/
def runPipeline (freezeChoice : Option String) (today : String)
    (fetchBTC fetchETH : Except String PriceSeries) (st0 : PState) :
    RunResult :=
  match freezeChoice with
  | some d =>
    match st0.snapshots ("BTCUSDT", d), st0.snapshots ("ETHUSDT", d) with
    | some btc_df, some eth_df => finishRun st0 0 today btc_df eth_df
    | _, _ => ⟨st0, 0, false, true⟩
  | none =>
    match fetchBTC with
    | .error _ => ⟨st0, 1, false, true⟩
    | .ok btc_df =>
      match fetchETH with
      | .error _ => ⟨st0, 2, false, true⟩
      | .ok eth_df =>
        let st1 := updSnap (updSnap st0 ("BTCUSDT", today) btc_df)
          ("ETHUSDT", today) eth_df
        finishRun st1 2 today btc_df eth_df

/-- `n` successive invocations of the script with the same mode, date
and network outcomes, each starting from the state the previous one
left behind. -/
def iterRun (freezeChoice : Option String) (today : String)
    (fetchBTC fetchETH : Except String PriceSeries) (st0 : PState) :
    ℕ → PState
  | 0 => st0
  | n + 1 =>
    (runPipeline freezeChoice today fetchBTC fetchETH
      (iterRun freezeChoice today fetchBTC fetchETH st0 n)).state

/-- The data the run works on, when acquisition succeeds: the two
fetched series in live mode, the two stored snapshot series in frozen
mode; `none` when the run aborts during acquisition. -/
def acquiredData (freezeChoice : Option String)
    (fetchBTC fetchETH : Except String PriceSeries) (st0 : PState) :
    Option (PriceSeries × PriceSeries) :=
  match freezeChoice with
  | some d =>
    match st0.snapshots ("BTCUSDT", d), st0.snapshots ("ETHUSDT", d) with
    | some b, some e => some (b, e)
    | _, _ => none
  | none =>
    match fetchBTC, fetchETH with
    | .ok b, .ok e => some (b, e)
    | _, _ => none

/-- A concrete pre-existing state: this morning's live run already saved
a BTC snapshot for 2025-10-12. -/
def c5PriorState : PState :=
  ⟨fun k => if k = ("BTCUSDT", "2025-10-12") then some [(0, 5)] else none,
    fun _ => none⟩

/-- A concrete state holding both snapshot files for 2025-10-11, as a
frozen-mode run would find them. -/
def frozenDemoState : PState :=
  ⟨fun k =>
    if k = ("BTCUSDT", "2025-10-11") then some [(0, 2)]
    else if k = ("ETHUSDT", "2025-10-11") then some [(0, 4)]
    else none,
    fun _ => none⟩

theorem ffillAux_length (l : Option ℚ) (xs : List (Option ℚ)) :
    (ffillAux l xs).length = xs.length := by
  induction xs generalizing l with
  | nil => rfl
  | cons a t ih => cases a <;> simp [ffillAux, ih]

theorem bfill_length (xs : List (Option ℚ)) : (bfill xs).length = xs.length := by
  simp [bfill, ffillAux_length]

theorem filledCol_length (s : PriceSeries) (idx : List ℕ) :
    (filledCol s idx).length = idx.length := by
  simp [filledCol, ffill, bfill, ffillAux_length, colO]

theorem mem_insertSorted {a t : ℕ} {l : List ℕ} :
    a ∈ insertSorted t l ↔ a = t ∨ a ∈ l := by
  induction l with
  | nil => simp [insertSorted]
  | cons x xs ih =>
    simp only [insertSorted]
    split
    · simp [List.mem_cons]
    · simp [List.mem_cons, ih]
      tauto

theorem mem_sortNat {a : ℕ} {l : List ℕ} : a ∈ sortNat l ↔ a ∈ l := by
  induction l with
  | nil => simp [sortNat]
  | cons x xs ih =>
    show a ∈ insertSorted x (sortNat xs) ↔ _
    rw [mem_insertSorted, ih]
    simp [List.mem_cons]

theorem mem_unionIndex {t : ℕ} {s1 s2 : PriceSeries} :
    t ∈ unionIndex s1 s2 ↔ t ∈ s1.map Prod.fst ∨ t ∈ s2.map Prod.fst := by
  simp [unionIndex, mem_sortNat, List.mem_dedup]

theorem lookupPrice_isSome_of_mem {t : ℕ} {s : PriceSeries}
    (h : t ∈ s.map Prod.fst) : (lookupPrice s t).isSome := by
  induction s with
  | nil => simp at h
  | cons p rest ih =>
    rw [lookupPrice]
    split
    · rfl
    · rename_i hne
      apply ih
      rcases List.mem_cons.mp h with h1 | h1
      · exact absurd h1.symm hne
      · exact h1

theorem ffillAux_isSome_of_some {o : Option ℚ} :
    ∀ (xs : List (Option ℚ)) (v : ℚ), o ∈ ffillAux (some v) xs → o.isSome := by
  intro xs
  induction xs with
  | nil => intro v h; simp [ffillAux] at h
  | cons a t ih =>
    intro v h
    cases a with
    | none =>
      rw [ffillAux] at h
      rcases List.mem_cons.mp h with h1 | h1
      · subst h1; rfl
      · exact ih v h1
    | some w =>
      rw [ffillAux] at h
      rcases List.mem_cons.mp h with h1 | h1
      · subst h1; rfl
      · exact ih w h1

theorem getLast?_isSome_of_allSome {xs : List (Option ℚ)} (hne : xs ≠ [])
    (h : ∀ o ∈ xs, o.isSome) : ∃ v, xs.getLast? = some (some v) := by
  obtain ⟨o, ho⟩ := Option.isSome_iff_exists.mp
    ((List.getLast?_isSome).mpr hne)
  have hmem : o ∈ xs := by
    obtain ⟨hne2, heq⟩ := List.mem_getLast?_eq_getLast (Option.mem_def.mpr ho)
    rw [heq]
    exact List.getLast_mem hne2
  obtain ⟨v, hv⟩ := Option.isSome_iff_exists.mp (h o hmem)
  exact ⟨v, by rw [ho, hv]⟩

theorem getLast?_cons_of_tail_ne_nil {a : Option ℚ} {t : List (Option ℚ)}
    (h : t ≠ []) : (a :: t).getLast? = t.getLast? := by
  cases t with
  | nil => exact absurd rfl h
  | cons b u => exact List.getLast?_cons_cons

theorem ffillAux_getLast {xs : List (Option ℚ)}
    (h : ∃ o ∈ xs, o.isSome) :
    ∀ l, ∃ v, (ffillAux l xs).getLast? = some (some v) := by
  induction xs with
  | nil => simp at h
  | cons a t ih =>
    intro l
    cases a with
    | none =>
      have ht : ∃ o ∈ t, o.isSome := by
        obtain ⟨o, ho, hs⟩ := h
        rcases List.mem_cons.mp ho with h1 | h1
        · subst h1; simp at hs
        · exact ⟨o, h1, hs⟩
      have htne : t ≠ [] := by
        obtain ⟨o, ho, _⟩ := ht
        exact List.ne_nil_of_mem ho
      have hfne : ffillAux l t ≠ [] := by
        intro hc
        have := ffillAux_length l t
        rw [hc] at this
        exact htne (List.length_eq_zero.mp this.symm)
      obtain ⟨v, hv⟩ := ih ht l
      refine ⟨v, ?_⟩
      rw [ffillAux]
      rw [getLast?_cons_of_tail_ne_nil hfne]
      exact hv
    | some w =>
      rw [ffillAux]
      by_cases htne : t = []
      · subst htne
        exact ⟨w, rfl⟩
      · have hfne : ffillAux (some w) t ≠ [] := by
          intro hc
          have := ffillAux_length (some w) t
          rw [hc] at this
          exact htne (List.length_eq_zero.mp this.symm)
        by_cases ht : ∃ o ∈ t, o.isSome
        · obtain ⟨v, hv⟩ := ih ht (some w)
          exact ⟨v, by rw [getLast?_cons_of_tail_ne_nil hfne]; exact hv⟩
        · obtain ⟨v, hv⟩ := getLast?_isSome_of_allSome hfne
            (fun o ho => ffillAux_isSome_of_some t w ho)
          exact ⟨v, by rw [getLast?_cons_of_tail_ne_nil hfne]; exact hv⟩

theorem bfill_ffill_allSome {xs : List (Option ℚ)}
    (h : ∃ o ∈ xs, o.isSome) : ∀ o ∈ bfill (ffill xs), o.isSome := by
  obtain ⟨v, hv⟩ := ffillAux_getLast h none
  intro o ho
  rw [bfill] at ho
  rw [List.mem_reverse] at ho
  have hhead : (ffill xs).reverse.head? = some (some v) := by
    rw [List.head?_reverse]
    exact hv
  rcases hrev : (ffill xs).reverse with _ | ⟨a, t⟩
  · rw [hrev] at ho; simp [ffillAux] at ho
  · rw [hrev] at hhead
    simp at hhead
    subst hhead
    rw [hrev] at ho
    rw [ffillAux] at ho
    rcases List.mem_cons.mp ho with h1 | h1
    · subst h1; rfl
    · exact ffillAux_isSome_of_some t v h1

theorem lookupPrice_scale (c : ℚ) (s : PriceSeries) (t : ℕ) :
    lookupPrice (scaleSeries c s) t =
      (lookupPrice s t).map (fun v => c * v) := by
  induction s with
  | nil => rfl
  | cons p rest ih =>
    by_cases h : p.1 = t
    · simp [scaleSeries, lookupPrice, h]
    · simp only [scaleSeries, List.map_cons, lookupPrice, h, if_false]
      simpa [scaleSeries] using ih

theorem map_fst_scaleSeries (c : ℚ) (s : PriceSeries) :
    (scaleSeries c s).map Prod.fst = s.map Prod.fst := by
  simp [scaleSeries, List.map_map, Function.comp]

theorem unionIndex_scale_left (c : ℚ) (s1 s2 : PriceSeries) :
    unionIndex (scaleSeries c s1) s2 = unionIndex s1 s2 := by
  simp [unionIndex, map_fst_scaleSeries]

theorem unionIndex_scale_right (c : ℚ) (s1 s2 : PriceSeries) :
    unionIndex s1 (scaleSeries c s2) = unionIndex s1 s2 := by
  simp [unionIndex, map_fst_scaleSeries]

theorem colO_scale (c : ℚ) (s : PriceSeries) (idx : List ℕ) :
    colO (scaleSeries c s) idx =
      (colO s idx).map (Option.map (fun v => c * v)) := by
  induction idx with
  | nil => rfl
  | cons t ts ih => simp [colO, lookupPrice_scale] at *

theorem ffillAux_map (c : ℚ) :
    ∀ (xs : List (Option ℚ)) (l : Option ℚ),
      ffillAux (l.map (fun v => c * v)) (xs.map (Option.map (fun v => c * v)))
        = (ffillAux l xs).map (Option.map (fun v => c * v)) := by
  intro xs
  induction xs with
  | nil => intro l; rfl
  | cons a t ih =>
    intro l
    cases a with
    | none => simpa [ffillAux] using ih l
    | some v => simpa [ffillAux] using ih (some v)

theorem filledCol_scale (c : ℚ) (s : PriceSeries) (idx : List ℕ) :
    filledCol (scaleSeries c s) idx =
      (filledCol s idx).map (Option.map (fun v => c * v)) := by
  have h1 : ffill (colO (scaleSeries c s) idx)
      = (ffill (colO s idx)).map (Option.map (fun v => c * v)) := by
    rw [colO_scale, ffill, ffill]
    simpa using ffillAux_map c (colO s idx) none
  rw [filledCol, filledCol, h1, bfill, bfill, ← List.map_reverse]
  have h2 := ffillAux_map c ((ffill (colO s idx)).reverse) none
  simp only [Option.map_none'] at h2
  rw [h2, List.map_reverse]

theorem alignedCol_scale (c : ℚ) (s : PriceSeries) (idx : List ℕ) :
    alignedCol (scaleSeries c s) idx = (alignedCol s idx).map (fun v => c * v) := by
  rw [alignedCol, alignedCol, filledCol_scale, List.map_map, List.map_map]
  congr 1
  funext o
  cases o <;> simp

theorem headI_map_mul (c : ℚ) (l : List ℚ) :
    (l.map (fun v => c * v)).headI = c * l.headI := by
  cases l with
  | nil => exact (mul_zero c).symm
  | cons v t => simp

theorem normalizeCol_map_mul {c : ℚ} (hc : c ≠ 0) (col : List ℚ) :
    normalizeCol (col.map (fun v => c * v)) = normalizeCol col := by
  rw [normalizeCol, normalizeCol, headI_map_mul, List.map_map]
  congr 1
  funext v
  simp only [Function.comp]
  exact mul_div_mul_left v col.headI hc

theorem normalizeCol_head {col : List ℚ} (h : col.headI ≠ 0) :
    (normalizeCol col).head? = some 1 := by
  cases col with
  | nil => exact absurd rfl h
  | cons v t =>
    simp only [List.headI_cons] at h
    simp [normalizeCol, div_self h]

theorem ewmaAcc_length (a p : ℚ) (xs : List ℚ) :
    (ewmaAcc a p xs).length = xs.length := by
  induction xs generalizing p with
  | nil => rfl
  | cons x t ih => simp [ewmaAcc, ih]

theorem ewma_length (a : ℚ) (xs : List ℚ) : (ewma a xs).length = xs.length := by
  cases xs <;> simp [ewma, ewmaAcc_length]

theorem ewma_head (a : ℚ) (xs : List ℚ) : (ewma a xs).head? = xs.head? := by
  cases xs <;> rfl

theorem ewmaAcc_rec (a : ℚ) :
    ∀ (xs : List ℚ) (p : ℚ) (i : ℕ) (x y : ℚ),
      xs[i + 1]? = some x → (ewmaAcc a p xs)[i]? = some y →
      (ewmaAcc a p xs)[i + 1]? = some (a * x + (1 - a) * y) := by
  intro xs
  induction xs with
  | nil => intro p i x y h1 _; simp at h1
  | cons x0 t ih =>
    intro p i x y h1 h2
    cases i with
    | zero =>
      cases t with
      | nil => simp at h1
      | cons z t' =>
        simp only [List.getElem?_cons_succ, List.getElem?_cons_zero,
          Option.some.injEq] at h1
        simp only [ewmaAcc, List.getElem?_cons_zero, Option.some.injEq] at h2
        subst h1
        subst h2
        simp [ewmaAcc]
    | succ n =>
      simp only [List.getElem?_cons_succ] at h1
      simp only [ewmaAcc, List.getElem?_cons_succ] at h2 ⊢
      exact ih _ n x y h1 h2

theorem ewma_rec (a : ℚ) (xs : List ℚ) (i : ℕ) (x y : ℚ)
    (h1 : xs[i + 1]? = some x) (h2 : (ewma a xs)[i]? = some y) :
    (ewma a xs)[i + 1]? = some (a * x + (1 - a) * y) := by
  cases xs with
  | nil => simp at h1
  | cons x0 t =>
    cases i with
    | zero =>
      cases t with
      | nil => simp at h1
      | cons z t' =>
        simp only [List.getElem?_cons_succ, List.getElem?_cons_zero,
          Option.some.injEq] at h1
        simp only [ewma, List.getElem?_cons_zero, Option.some.injEq] at h2
        subst h1
        subst h2
        simp [ewma, ewmaAcc]
    | succ n =>
      simp only [List.getElem?_cons_succ] at h1
      simp only [ewma, List.getElem?_cons_succ] at h2 ⊢
      exact ewmaAcc_rec a t x0 n x y h1 h2

theorem anySome_colO_left {s1 s2 : PriceSeries} (h1 : s1 ≠ []) :
    ∃ o ∈ colO s1 (unionIndex s1 s2), o.isSome := by
  obtain ⟨p, hp⟩ := List.exists_mem_of_ne_nil s1 h1
  have ht : p.1 ∈ s1.map Prod.fst := List.mem_map_of_mem Prod.fst hp
  have hidx : p.1 ∈ unionIndex s1 s2 := mem_unionIndex.mpr (Or.inl ht)
  exact ⟨lookupPrice s1 p.1, List.mem_map_of_mem (lookupPrice s1) hidx,
    lookupPrice_isSome_of_mem ht⟩

theorem anySome_colO_right {s1 s2 : PriceSeries} (h2 : s2 ≠ []) :
    ∃ o ∈ colO s2 (unionIndex s1 s2), o.isSome := by
  obtain ⟨p, hp⟩ := List.exists_mem_of_ne_nil s2 h2
  have ht : p.1 ∈ s2.map Prod.fst := List.mem_map_of_mem Prod.fst hp
  have hidx : p.1 ∈ unionIndex s1 s2 := mem_unionIndex.mpr (Or.inr ht)
  exact ⟨lookupPrice s2 p.1, List.mem_map_of_mem (lookupPrice s2) hidx,
    lookupPrice_isSome_of_mem ht⟩

theorem runPipeline_frozen (d today : String)
    (fb fe : Except String PriceSeries) (st0 : PState) :
    runPipeline (some d) today fb fe st0 =
      match st0.snapshots ("BTCUSDT", d), st0.snapshots ("ETHUSDT", d) with
      | some b, some e => finishRun st0 0 today b e
      | _, _ => ⟨st0, 0, false, true⟩ := rfl

theorem runPipeline_live_errB (today m : String)
    (fe : Except String PriceSeries) (st0 : PState) :
    runPipeline none today (.error m) fe st0 = ⟨st0, 1, false, true⟩ := rfl

theorem runPipeline_live_errE (today m : String) (b : PriceSeries)
    (st0 : PState) :
    runPipeline none today (.ok b) (.error m) st0 = ⟨st0, 2, false, true⟩ := rfl

theorem runPipeline_live_ok (today : String) (b e : PriceSeries)
    (st0 : PState) :
    runPipeline none today (.ok b) (.ok e) st0 =
      finishRun (updSnap (updSnap st0 ("BTCUSDT", today) b)
        ("ETHUSDT", today) e) 2 today b e := rfl

theorem finishRun_snapshots (st : PState) (fc : ℕ) (today : String)
    (b e : PriceSeries) :
    (finishRun st fc today b e).state.snapshots = st.snapshots := by
  rw [finishRun]
  split <;> rfl

theorem finishRun_fetchCount (st : PState) (fc : ℕ) (today : String)
    (b e : PriceSeries) : (finishRun st fc today b e).fetchCount = fc := by
  rw [finishRun]
  split <;> rfl

theorem frozen_run_snapshots (d today : String)
    (fb fe : Except String PriceSeries) (st0 : PState) :
    (runPipeline (some d) today fb fe st0).state.snapshots = st0.snapshots := by
  rw [runPipeline_frozen]
  split
  · exact finishRun_snapshots _ _ _ _ _
  · rfl

theorem frozen_run_fetchCount (d today : String)
    (fb fe : Except String PriceSeries) (st0 : PState) :
    (runPipeline (some d) today fb fe st0).fetchCount = 0 := by
  rw [runPipeline_frozen]
  split
  · exact finishRun_fetchCount _ _ _ _ _
  · rfl

theorem updSnap_logs (st : PState) (k : String × String) (v : PriceSeries) :
    (updSnap st k v).logs = st.logs := rfl

theorem runPipeline_logs_point {choice : Option String} {today : String}
    {fb fe : Except String PriceSeries} {st0 : PState} {b e : PriceSeries}
    (hacq : acquiredData choice fb fe st0 = some (b, e))
    (hne : unionIndex b e ≠ []) (f : String) :
    (runPipeline choice today fb fe st0).state.logs f =
      if f = today then
        match st0.logs today with
        | none => some ⟨1, [computeRow b e]⟩
        | some lf => some ⟨lf.headerCount, lf.rows ++ [computeRow b e]⟩
      else st0.logs f := by
  cases choice with
  | some d =>
    rcases hb : st0.snapshots ("BTCUSDT", d) with _ | b'
    · exact absurd hacq (by simp [acquiredData, hb])
    · rcases he : st0.snapshots ("ETHUSDT", d) with _ | e'
      · exact absurd hacq (by simp [acquiredData, hb, he])
      · have hbe : b' = b ∧ e' = e := by
          have := hacq
          rw [acquiredData, hb, he] at this
          simpa using this
        obtain ⟨hb', he'⟩ := hbe
        subst hb'
        subst he'
        rw [runPipeline_frozen, hb, he]
        show (finishRun st0 0 today b' e').state.logs f = _
        rw [finishRun, if_neg hne]
        rfl
  | none =>
    rcases fb with m | b'
    · rcases fe with m2 | e' <;> exact absurd hacq (by simp [acquiredData])
    · rcases fe with m2 | e'
      · exact absurd hacq (by simp [acquiredData])
      · have hbe : b' = b ∧ e' = e := by
          have := hacq
          rw [acquiredData] at this
          simpa using this
        obtain ⟨hb', he'⟩ := hbe
        subst hb'
        subst he'
        rw [runPipeline_live_ok]
        show (finishRun _ 2 today b' e').state.logs f = _
        rw [finishRun, if_neg hne]
        rfl

theorem acquiredData_run_invariant (choice : Option String) (today : String)
    (fb fe : Except String PriceSeries) (st : PState) :
    acquiredData choice fb fe ((runPipeline choice today fb fe st).state) =
      acquiredData choice fb fe st := by
  cases choice with
  | none => rfl
  | some d =>
    unfold acquiredData
    rw [frozen_run_snapshots]

theorem acquiredData_iterRun (choice : Option String) (today : String)
    (fb fe : Except String PriceSeries) (st0 : PState) (n : ℕ) :
    acquiredData choice fb fe (iterRun choice today fb fe st0 n) =
      acquiredData choice fb fe st0 := by
  induction n with
  | zero => rfl
  | succ m ih =>
    rw [iterRun, acquiredData_run_invariant]
    exact ih

theorem iterRun_logs {choice : Option String} {today : String}
    {fb fe : Except String PriceSeries} {st0 : PState} {b e : PriceSeries}
    (hacq : acquiredData choice fb fe st0 = some (b, e))
    (hne : unionIndex b e ≠ []) (h0 : st0.logs today = none) :
    ∀ n, (iterRun choice today fb fe st0 (n + 1)).logs today =
      some ⟨1, List.replicate (n + 1) (computeRow b e)⟩ := by
  intro n
  induction n with
  | zero =>
    rw [iterRun, iterRun]
    rw [runPipeline_logs_point hacq hne today, if_pos rfl, h0]
    rfl
  | succ m ih =>
    rw [iterRun]
    have hacq' : acquiredData choice fb fe
        (iterRun choice today fb fe st0 (m + 1)) = some (b, e) := by
      rw [acquiredData_iterRun]
      exact hacq
    rw [runPipeline_logs_point hacq' hne today, if_pos rfl, ih]
    show some (LogFile.mk 1
        (List.replicate (m + 1) (computeRow b e) ++ [computeRow b e]))
      = some (LogFile.mk 1 (List.replicate (m + 1 + 1) (computeRow b e)))
    rw [← List.replicate_succ']

/-- C1: for every aligned frame whose first BTC and first ETH values are
nonzero, the two normalized single-asset series start at exactly 1. -/
theorem normalized_base_one (s1 s2 : PriceSeries)
    (h1 : (alignedCol s1 (unionIndex s1 s2)).headI ≠ 0)
    (h2 : (alignedCol s2 (unionIndex s1 s2)).headI ≠ 0) :
    (normBTC s1 s2).head? = some 1 ∧ (normETH s1 s2).head? = some 1 :=
  ⟨normalizeCol_head h1, normalizeCol_head h2⟩

/-- C1 witness: a concrete aligned frame with nonzero first values. -/
theorem normalized_base_one_witness :
    (normBTC [((0 : ℕ), (2 : ℚ))] [((0 : ℕ), (4 : ℚ))]).head? = some 1 :=
  (normalized_base_one [((0 : ℕ), (2 : ℚ))] [((0 : ℕ), (4 : ℚ))]
    (by decide) (by decide)).1

/-- C2: the EWMA with span 7 has decay 1/4, preserves length, starts at
the first input, obeys the adjust=False recursion, and matches the two
worked examples from the spec. -/
theorem ema_recursion_spec (xs : List ℚ) :
    emaAlpha = 1 / 4 ∧
    (ewma emaAlpha xs).length = xs.length ∧
    (ewma emaAlpha xs).head? = xs.head? ∧
    (∀ i x y, xs[i + 1]? = some x → (ewma emaAlpha xs)[i]? = some y →
      (ewma emaAlpha xs)[i + 1]? = some (emaAlpha * x + (1 - emaAlpha) * y)) ∧
    ewma emaAlpha [100, 100, 100] = [100, 100, 100] ∧
    ewma emaAlpha [100, 200] = [100, 125] :=
  ⟨by norm_num [emaAlpha, ema_period], ewma_length _ _, ewma_head _ _,
    fun i x y h1 h2 => ewma_rec emaAlpha xs i x y h1 h2,
    by norm_num [ewma, ewmaAcc, emaAlpha, ema_period],
    by norm_num [ewma, ewmaAcc, emaAlpha, ema_period]⟩

/-- C2 witness: the recursion instantiated on the input [100, 200]. -/
theorem ema_recursion_spec_witness :
    (ewma emaAlpha [(100 : ℚ), 200])[1]? =
      some (emaAlpha * 200 + (1 - emaAlpha) * 100) :=
  (ema_recursion_spec [100, 200]).2.2.2.1 0 200 100 rfl rfl

/-- C3: for non-empty inputs, the aligned frame after ffill then bfill
has a defined value in both columns at every timestamp of the union
index. -/
theorem aligned_frame_no_gaps (s1 s2 : PriceSeries)
    (h1 : s1 ≠ []) (h2 : s2 ≠ []) :
    (∀ o ∈ filledCol s1 (unionIndex s1 s2), o.isSome) ∧
    (∀ o ∈ filledCol s2 (unionIndex s1 s2), o.isSome) ∧
    (filledCol s1 (unionIndex s1 s2)).length = (unionIndex s1 s2).length ∧
    (filledCol s2 (unionIndex s1 s2)).length = (unionIndex s1 s2).length :=
  ⟨bfill_ffill_allSome (anySome_colO_left h1),
    bfill_ffill_allSome (anySome_colO_right h2),
    filledCol_length _ _, filledCol_length _ _⟩

/-- C3 witness: two disjoint one-point series align to a two-point,
fully populated frame. -/
theorem aligned_frame_no_gaps_witness :
    (filledCol [((0 : ℕ), (2 : ℚ))]
        (unionIndex [((0 : ℕ), (2 : ℚ))] [((1 : ℕ), (3 : ℚ))])).length =
      (unionIndex [((0 : ℕ), (2 : ℚ))] [((1 : ℕ), (3 : ℚ))]).length :=
  (aligned_frame_no_gaps [((0 : ℕ), (2 : ℚ))] [((1 : ℕ), (3 : ℚ))]
    (by decide) (by decide)).2.2.1

/-- C4: the banner reports ETH leading exactly when the final normalized
ETH value strictly exceeds BTC's; on a tie it reports BTC leading. -/
theorem leading_signal_strict (b e : ℚ) :
    (leadingSignal b e = Leader.eth ↔ b < e) ∧
    (e ≤ b → leadingSignal b e = Leader.btc) ∧
    leadingSignal b b = Leader.btc := by
  refine ⟨?_, ?_, ?_⟩
  · by_cases h : b < e
    · simp [leadingSignal, h]
    · simp [leadingSignal, h]
  · intro h
    simp [leadingSignal, not_lt.mpr h]
  · simp [leadingSignal]

/-- C4 witness: the spec's example values 1.10 / 1.15 and the tie. -/
theorem leading_signal_strict_witness :
    leadingSignal (11 / 10) (23 / 20) = Leader.eth ∧
    leadingSignal (11 / 10) (11 / 10) = Leader.btc :=
  ⟨(leading_signal_strict (11 / 10) (23 / 20)).1.mpr (by norm_num),
    (leading_signal_strict (11 / 10) (11 / 10)).2.2⟩

/-- C5 counterexample: a snapshot written for (BTCUSDT, 2025-10-12) is
overwritten by a later successful live run on the same calendar day, so
a SnapshotFile is not immutable within the day. -/
theorem snapshot_overwrite_counterexample :
    c5PriorState.snapshots ("BTCUSDT", "2025-10-12")
        = some [((0 : ℕ), (5 : ℚ))] ∧
    (runPipeline none "2025-10-12" (.ok [((0 : ℕ), (7 : ℚ))])
        (.ok [((0 : ℕ), (3 : ℚ))]) c5PriorState).state.snapshots
        ("BTCUSDT", "2025-10-12") = some [((0 : ℕ), (7 : ℚ))] ∧
    (runPipeline none "2025-10-12" (.ok [((0 : ℕ), (7 : ℚ))])
        (.ok [((0 : ℕ), (3 : ℚ))]) c5PriorState).state.snapshots
        ("BTCUSDT", "2025-10-12") ≠ some [((0 : ℕ), (5 : ℚ))] := by
  refine ⟨by simp [c5PriorState], ?_, ?_⟩ <;>
    simp [c5PriorState, runPipeline, finishRun, updSnap, appendLog,
      unionIndex, sortNat, insertSorted]

/-- C5 amended: after a successful live run, the snapshot for each
asset and today's date equals that run's fetched series (the latest
fetch of the day wins, overwriting any earlier same-day snapshot);
frozen-mode runs never change any snapshot file. -/
theorem snapshot_latest_write_wins (today : String) (b e : PriceSeries)
    (st0 : PState) :
    ((runPipeline none today (.ok b) (.ok e) st0).state.snapshots
        ("BTCUSDT", today) = some b) ∧
    ((runPipeline none today (.ok b) (.ok e) st0).state.snapshots
        ("ETHUSDT", today) = some e) ∧
    (∀ d fb fe k,
      (runPipeline (some d) today fb fe st0).state.snapshots k
        = st0.snapshots k) := by
  refine ⟨?_, ?_,
    fun d fb fe k => congrFun (frozen_run_snapshots d today fb fe st0) k⟩
  · rw [runPipeline_live_ok, finishRun_snapshots]
    simp [updSnap]
  · rw [runPipeline_live_ok, finishRun_snapshots]
    simp [updSnap]

/-- C6: in live mode, a failed fetch of either asset aborts the run
with a user-visible error, renders no chart, and leaves the filesystem
untouched. -/
theorem fetch_failure_aborts (today : String)
    (fb fe : Except String PriceSeries) (st0 : PState)
    (h : (∃ m, fb = .error m) ∨ (∃ m, fe = .error m)) :
    (runPipeline none today fb fe st0).errorShown = true ∧
    (runPipeline none today fb fe st0).chartRendered = false ∧
    (∀ k, (runPipeline none today fb fe st0).state.snapshots k
      = st0.snapshots k) ∧
    (∀ f, (runPipeline none today fb fe st0).state.logs f = st0.logs f) := by
  rcases fb with m | b
  · rw [runPipeline_live_errB]
    exact ⟨rfl, rfl, fun k => rfl, fun f => rfl⟩
  · rcases fe with m | e
    · rw [runPipeline_live_errE]
      exact ⟨rfl, rfl, fun k => rfl, fun f => rfl⟩
    · exfalso
      rcases h with ⟨m, hm⟩ | ⟨m, hm⟩ <;> exact Except.noConfusion hm

/-- C6 witness: a concrete failing BTC fetch. -/
theorem fetch_failure_aborts_witness :
    (runPipeline none "2025-10-12" (.error "boom") (.ok []) emptyState).errorShown
        = true ∧
    (runPipeline none "2025-10-12" (.error "boom") (.ok [])
        emptyState).chartRendered = false ∧
    (runPipeline none "2025-10-12" (.error "boom") (.ok [])
        emptyState).state.logs "2025-10-12" = emptyState.logs "2025-10-12" := by
  have h := fetch_failure_aborts "2025-10-12" (.error "boom") (.ok [])
    emptyState (Or.inl ⟨"boom", rfl⟩)
  exact ⟨h.1, h.2.1, h.2.2.2 "2025-10-12"⟩

/-- C7: every invocation that completes acquisition appends exactly one
log row to today's file — creating it with one header if absent,
appending without a header otherwise — touches no other log file, and
n successive such invocations starting with no file leave one header
and n rows. -/
theorem log_append_per_invocation (choice : Option String) (today : String)
    (fb fe : Except String PriceSeries) (st0 : PState) (b e : PriceSeries)
    (hacq : acquiredData choice fb fe st0 = some (b, e))
    (hne : unionIndex b e ≠ []) :
    ((runPipeline choice today fb fe st0).state.logs today =
      match st0.logs today with
      | none => some ⟨1, [computeRow b e]⟩
      | some lf => some ⟨lf.headerCount, lf.rows ++ [computeRow b e]⟩) ∧
    (∀ f, f ≠ today → (runPipeline choice today fb fe st0).state.logs f
      = st0.logs f) ∧
    (st0.logs today = none →
      ∀ n, (iterRun choice today fb fe st0 (n + 1)).logs today =
        some ⟨1, List.replicate (n + 1) (computeRow b e)⟩) := by
  refine ⟨?_, ?_, fun h0 n => iterRun_logs hacq hne h0 n⟩
  · rw [runPipeline_logs_point hacq hne today, if_pos rfl]
  · intro f hf
    rw [runPipeline_logs_point hacq hne f, if_neg hf]

/-- C7 witness: two live invocations on the same day leave one header
and two rows. -/
theorem log_append_per_invocation_witness :
    (iterRun none "2025-10-12" (.ok [((0 : ℕ), (2 : ℚ))])
        (.ok [((0 : ℕ), (4 : ℚ))]) emptyState 2).logs "2025-10-12" =
      some ⟨1, List.replicate 2 (computeRow [((0 : ℕ), (2 : ℚ))]
        [((0 : ℕ), (4 : ℚ))])⟩ := by
  have h := log_append_per_invocation none "2025-10-12"
    (.ok [((0 : ℕ), (2 : ℚ))]) (.ok [((0 : ℕ), (4 : ℚ))]) emptyState
    [((0 : ℕ), (2 : ℚ))] [((0 : ℕ), (4 : ℚ))] rfl (by decide)
  exact h.2.2 rfl 1

/-- C8: a frozen-mode run performs no fetch, leaves every snapshot file
unchanged, and when both snapshot files for the chosen date exist it
proceeds with exactly those stored series. -/
theorem frozen_mode_frame_effect (d today : String)
    (fb fe : Except String PriceSeries) (st0 : PState) :
    (runPipeline (some d) today fb fe st0).fetchCount = 0 ∧
    (∀ k, (runPipeline (some d) today fb fe st0).state.snapshots k
      = st0.snapshots k) ∧
    (∀ b e, st0.snapshots ("BTCUSDT", d) = some b →
      st0.snapshots ("ETHUSDT", d) = some e →
      runPipeline (some d) today fb fe st0 = finishRun st0 0 today b e) := by
  refine ⟨frozen_run_fetchCount d today fb fe st0,
    fun k => congrFun (frozen_run_snapshots d today fb fe st0) k,
    fun b e hb he => ?_⟩
  rw [runPipeline_frozen, hb, he]

/-- C8 witness: viewing the 2025-10-11 snapshots with the network down
still runs on exactly the stored series. -/
theorem frozen_mode_frame_effect_witness :
    runPipeline (some "2025-10-11") "2025-10-12" (.error "down")
        (.error "down") frozenDemoState =
      finishRun frozenDemoState 0 "2025-10-12" [((0 : ℕ), (2 : ℚ))]
        [((0 : ℕ), (4 : ℚ))] := by
  have h := frozen_mode_frame_effect "2025-10-11" "2025-10-12"
    (.error "down") (.error "down") frozenDemoState
  exact h.2.2 [((0 : ℕ), (2 : ℚ))] [((0 : ℕ), (4 : ℚ))]
    (by simp [frozenDemoState]) (by simp [frozenDemoState])

/-- C9: scaling an entire raw input series by a positive constant
leaves that asset's normalized series unchanged. -/
theorem normalization_scale_invariant (s1 s2 : PriceSeries) (c : ℚ)
    (hc : 0 < c) :
    normBTC (scaleSeries c s1) s2 = normBTC s1 s2 ∧
    normETH s1 (scaleSeries c s2) = normETH s1 s2 := by
  have hc' : c ≠ 0 := ne_of_gt hc
  constructor
  · rw [normBTC, normBTC, unionIndex_scale_left, alignedCol_scale,
      normalizeCol_map_mul hc']
  · rw [normETH, normETH, unionIndex_scale_right, alignedCol_scale,
      normalizeCol_map_mul hc']

/-- C9 witness: tripling a two-point BTC series. -/
theorem normalization_scale_invariant_witness :
    normBTC (scaleSeries 3 [((0 : ℕ), (2 : ℚ)), (1, 4)])
        [((0 : ℕ), (5 : ℚ))] =
      normBTC [((0 : ℕ), (2 : ℚ)), (1, 4)] [((0 : ℕ), (5 : ℚ))] :=
  (normalization_scale_invariant [((0 : ℕ), (2 : ℚ)), (1, 4)]
    [((0 : ℕ), (5 : ℚ))] 3 (by norm_num)).1

/-- C10: in live mode no snapshot is written unless both fetches
succeed, and when they do, both snapshots are written from the fetched
data. -/
theorem no_snapshot_write_on_fetch_failure (today : String)
    (fb fe : Except String PriceSeries) (st0 : PState) :
    ((∃ m, fb = .error m) ∨ (∃ m, fe = .error m) →
      ∀ k, (runPipeline none today fb fe st0).state.snapshots k
        = st0.snapshots k) ∧
    (∀ b e, fb = .ok b → fe = .ok e →
      (runPipeline none today fb fe st0).state.snapshots ("BTCUSDT", today)
          = some b ∧
      (runPipeline none today fb fe st0).state.snapshots ("ETHUSDT", today)
          = some e) := by
  constructor
  · intro h k
    rcases fb with m | b
    · rw [runPipeline_live_errB]
    · rcases fe with m | e
      · rw [runPipeline_live_errE]
      · exfalso
        rcases h with ⟨m, hm⟩ | ⟨m, hm⟩ <;> exact Except.noConfusion hm
  · intro b e hb he
    subst hb
    subst he
    constructor
    · rw [runPipeline_live_ok, finishRun_snapshots]
      simp [updSnap]
    · rw [runPipeline_live_ok, finishRun_snapshots]
      simp [updSnap]

/-- C10 witness: an ETH fetch failure leaves the empty filesystem
empty. -/
theorem no_snapshot_write_on_fetch_failure_witness :
    (runPipeline none "2025-10-12" (.ok [((0 : ℕ), (2 : ℚ))])
        (.error "boom") emptyState).state.snapshots
        ("BTCUSDT", "2025-10-12")
      = emptyState.snapshots ("BTCUSDT", "2025-10-12") := by
  have h := no_snapshot_write_on_fetch_failure "2025-10-12"
    (.ok [((0 : ℕ), (2 : ℚ))]) (.error "boom") emptyState
  exact h.1 (Or.inr ⟨"boom", rfl⟩) ("BTCUSDT", "2025-10-12")
